import Mathlib

/-!
Verification of the hutils FnCacher memoization helper (src/cache.rs).

The Rust source stores a wrapped function together with a HashMap from
argument to previously computed result. The HashMap is modelled as an
association list with key lookup and insert-or-replace, matching the
HashMap get and insert operations on keys compared by equality. The call
method is modelled as a function from the cacher state and an argument to
the returned result, the updated state, and the number of times the
wrapped function was invoked during that call (0 or 1).
-/

/-- Lookup in the association list, modelling HashMap.get: returns the
value of the first entry whose key equals the queried key, or none. -/
def hmGet {T R : Type} [DecidableEq T] : List (T × R) → T → Option R
  | [], _ => none
  | (k, v) :: rest, key => if key = k then some v else hmGet rest key

/-- Insert-or-replace in the association list, modelling HashMap.insert. -/
def hmInsert {T R : Type} [DecidableEq T] : List (T × R) → T → R → List (T × R)
  | [], key, val => [(key, val)]
  | (k, v) :: rest, key, val =>
      if key = k then (key, val) :: rest else (k, v) :: hmInsert rest key val

/-- The keys of the association list. -/
def hmKeys {T R : Type} (l : List (T × R)) : List T :=
  l.map Prod.fst

/-- FnCacher from src/cache.rs: a wrapped function together with the map of
cached results. -/
structure FnCacher (T R : Type) where
  function : T → R
  results : List (T × R)

/-- FnCacher.new from src/cache.rs: constructs a FnCacher holding the given
function and an empty results map. -/
def FnCacher.new {T R : Type} (function : T → R) : FnCacher T R :=
  { function := function, results := [] }

/-- FnCacher.call from src/cache.rs: if the map has no entry for arg, the
wrapped function is invoked on arg and the result inserted; then the map is
indexed at arg. The first component is the indexed value (none would model
the panic of indexing a missing key), the second is the updated state, the
third counts invocations of the wrapped function during this call. -/
def FnCacher.call {T R : Type} [DecidableEq T] (c : FnCacher T R) (arg : T) :
    Option R × FnCacher T R × Nat :=
  if (hmGet c.results arg).isNone then
    (hmGet (hmInsert c.results arg (c.function arg)) arg,
     { c with results := hmInsert c.results arg (c.function arg) }, 1)
  else
    (hmGet c.results arg, c, 0)

/-- Runs a sequence of calls, collecting the returned results, the final
state, and the total number of invocations of the wrapped function. -/
def FnCacher.runCalls {T R : Type} [DecidableEq T] (c : FnCacher T R) :
    List T → List (Option R) × FnCacher T R × Nat
  | [] => ([], c, 0)
  | a :: as =>
      ((c.call a).1 :: ((c.call a).2.1.runCalls as).1,
       ((c.call a).2.1.runCalls as).2.1,
       (c.call a).2.2 + ((c.call a).2.1.runCalls as).2.2)

/-- Variant of FnCacher whose wrapped function may fail, modelling a Rust
closure that can panic: Except.error e stands for a panic with payload e. -/
structure FnCacherE (T R : Type) where
  function : T → Except String R
  results : List (T × R)

/-- Variant of call for a wrapped function that may panic. A panic unwinds
out of call before the insert statement is reached, so the failure
propagates unchanged and the map is left exactly as it was. -/
def FnCacherE.call {T R : Type} [DecidableEq T] (c : FnCacherE T R) (arg : T) :
    Except String (Option R) × FnCacherE T R × Nat :=
  if (hmGet c.results arg).isNone then
    match c.function arg with
    | Except.error e => (Except.error e, c, 1)
    | Except.ok result =>
        (Except.ok (hmGet (hmInsert c.results arg result) arg),
         { c with results := hmInsert c.results arg result }, 1)
  else
    (Except.ok (hmGet c.results arg), c, 0)

theorem hmGet_insert_self {T R : Type} [DecidableEq T] (l : List (T × R)) (k : T) (v : R) :
    hmGet (hmInsert l k v) k = some v := by
  induction l with
  | nil => simp [hmInsert, hmGet]
  | cons p rest ih =>
      obtain ⟨k0, v0⟩ := p
      by_cases h : k = k0 <;> simp [hmInsert, hmGet, h, ih]

theorem hmGet_insert_ne {T R : Type} [DecidableEq T] (l : List (T × R)) (k q : T) (v : R)
    (h : q ≠ k) : hmGet (hmInsert l k v) q = hmGet l q := by
  induction l with
  | nil => simp [hmInsert, hmGet, h]
  | cons p rest ih =>
      obtain ⟨k0, v0⟩ := p
      by_cases hk : k = k0
      · subst hk
        simp [hmInsert, hmGet, h]
      · by_cases hq : q = k0 <;> simp [hmInsert, hmGet, hk, hq, ih]

theorem hmKeys_insert_of_get_none {T R : Type} [DecidableEq T] (l : List (T × R)) (k : T)
    (v : R) (h : hmGet l k = none) : hmKeys (hmInsert l k v) = hmKeys l ++ [k] := by
  induction l with
  | nil => simp [hmInsert, hmKeys]
  | cons p rest ih =>
      obtain ⟨k0, v0⟩ := p
      by_cases hk : k = k0
      · simp [hmGet, hk] at h
      · simp [hmGet, hk] at h
        simp [hmInsert, hmKeys, hk] at ih ⊢
        exact ih h

theorem mem_hmKeys_iff {T R : Type} [DecidableEq T] (l : List (T × R)) (k : T) :
    k ∈ hmKeys l ↔ (hmGet l k).isSome := by
  induction l with
  | nil => simp [hmKeys, hmGet]
  | cons p rest ih =>
      obtain ⟨k0, v0⟩ := p
      have hcons : hmKeys ((k0, v0) :: rest) = k0 :: hmKeys rest := rfl
      by_cases hk : k = k0 <;> simp [hcons, hmGet, hk, ih]

theorem call_of_get_some {T R : Type} [DecidableEq T] (c : FnCacher T R) (a : T) (r : R)
    (h : hmGet c.results a = some r) : c.call a = (some r, c, 0) := by
  simp [FnCacher.call, h]

theorem call_of_get_none {T R : Type} [DecidableEq T] (c : FnCacher T R) (a : T)
    (h : hmGet c.results a = none) :
    c.call a =
      (some (c.function a),
       { c with results := hmInsert c.results a (c.function a) }, 1) := by
  simp [FnCacher.call, h, hmGet_insert_self]

theorem call_function_eq {T R : Type} [DecidableEq T] (c : FnCacher T R) (a : T) :
    ((c.call a).2.1).function = c.function := by
  cases h : hmGet c.results a
  · simp [call_of_get_none c a h]
  · simp [call_of_get_some c a _ h]

theorem hmGet_call_self {T R : Type} [DecidableEq T] (c : FnCacher T R) (a : T) :
    hmGet ((c.call a).2.1).results a = some ((hmGet c.results a).getD (c.function a)) := by
  cases h : hmGet c.results a
  · simp [call_of_get_none c a h, hmGet_insert_self]
  · simp [call_of_get_some c a _ h, h]

theorem hmGet_call_of_ne {T R : Type} [DecidableEq T] (c : FnCacher T R) (a b : T)
    (h : b ≠ a) : hmGet ((c.call a).2.1).results b = hmGet c.results b := by
  cases hg : hmGet c.results a
  · simp [call_of_get_none c a hg, hmGet_insert_ne _ _ _ _ h]
  · simp [call_of_get_some c a _ hg]

theorem call_fst_eq {T R : Type} [DecidableEq T] (c : FnCacher T R) (a : T) :
    (c.call a).1 = some ((hmGet c.results a).getD (c.function a)) := by
  cases h : hmGet c.results a
  · simp [call_of_get_none c a h]
  · simp [call_of_get_some c a _ h, h]

theorem runCalls_nil {T R : Type} [DecidableEq T] (c : FnCacher T R) :
    c.runCalls [] = ([], c, 0) := rfl

theorem runCalls_cons {T R : Type} [DecidableEq T] (c : FnCacher T R) (a : T) (as : List T) :
    c.runCalls (a :: as) =
      ((c.call a).1 :: ((c.call a).2.1.runCalls as).1,
       ((c.call a).2.1.runCalls as).2.1,
       (c.call a).2.2 + ((c.call a).2.1.runCalls as).2.2) := rfl

theorem runCalls_function_eq {T R : Type} [DecidableEq T] (as : List T) (c : FnCacher T R) :
    ((c.runCalls as).2.1).function = c.function := by
  induction as generalizing c with
  | nil => rfl
  | cons a as ih => rw [runCalls_cons]; simp [ih, call_function_eq]

theorem hmGet_call_mono {T R : Type} [DecidableEq T] (c : FnCacher T R) (a k : T) (r : R)
    (h : hmGet c.results k = some r) : hmGet ((c.call a).2.1).results k = some r := by
  by_cases hk : k = a
  · subst hk
    rw [hmGet_call_self, h]
    rfl
  · rw [hmGet_call_of_ne c a k hk, h]

theorem hmGet_runCalls_mono {T R : Type} [DecidableEq T] (as : List T) (c : FnCacher T R)
    (k : T) (r : R) (h : hmGet c.results k = some r) :
    hmGet ((c.runCalls as).2.1).results k = some r := by
  induction as generalizing c with
  | nil => exact h
  | cons a as ih =>
      rw [runCalls_cons]
      exact ih _ (hmGet_call_mono c a k r h)

theorem hmGet_call_isSome_iff {T R : Type} [DecidableEq T] (c : FnCacher T R) (a k : T) :
    (hmGet ((c.call a).2.1).results k).isSome ↔ (hmGet c.results k).isSome ∨ k = a := by
  by_cases hk : k = a
  · subst hk
    simp [hmGet_call_self]
  · rw [hmGet_call_of_ne c a k hk]
    simp [hk]

theorem hmGet_runCalls_isSome_iff {T R : Type} [DecidableEq T] (as : List T)
    (c : FnCacher T R) (k : T) :
    (hmGet ((c.runCalls as).2.1).results k).isSome ↔
      (hmGet c.results k).isSome ∨ k ∈ as := by
  induction as generalizing c with
  | nil => simp [runCalls_nil]
  | cons a as ih =>
      rw [runCalls_cons]
      simp only [ih, hmGet_call_isSome_iff, List.mem_cons]
      tauto

theorem hmKeys_call_nodup {T R : Type} [DecidableEq T] (c : FnCacher T R) (a : T)
    (h : (hmKeys c.results).Nodup) : (hmKeys ((c.call a).2.1).results).Nodup := by
  cases hg : hmGet c.results a
  · rw [call_of_get_none c a hg]
    have hk := hmKeys_insert_of_get_none c.results a (c.function a) hg
    have hmem : a ∉ hmKeys c.results := by
      rw [mem_hmKeys_iff, hg]
      simp
    simp [hk, List.nodup_append, h, hmem]
  · rw [call_of_get_some c a _ hg]
    exact h

theorem hmKeys_runCalls_nodup {T R : Type} [DecidableEq T] (as : List T) (c : FnCacher T R)
    (h : (hmKeys c.results).Nodup) : (hmKeys ((c.runCalls as).2.1).results).Nodup := by
  induction as generalizing c with
  | nil => exact h
  | cons a as ih =>
      rw [runCalls_cons]
      exact ih _ (hmKeys_call_nodup c a h)

/-- The cache invariant: every stored value is what the wrapped function
produces on its key. -/
def Consistent {T R : Type} [DecidableEq T] (c : FnCacher T R) : Prop :=
  ∀ k r, hmGet c.results k = some r → r = c.function k

theorem consistent_new {T R : Type} [DecidableEq T] (f : T → R) :
    Consistent (FnCacher.new f) := by
  intro k r h
  simp [FnCacher.new, hmGet] at h

theorem consistent_call {T R : Type} [DecidableEq T] (c : FnCacher T R) (a : T)
    (h : Consistent c) : Consistent ((c.call a).2.1) := by
  intro k r hk
  rw [call_function_eq]
  by_cases hka : k = a
  · subst hka
    rw [hmGet_call_self] at hk
    cases hg : hmGet c.results k
    · rw [hg] at hk
      simp at hk
      exact hk.symm
    · rw [hg] at hk
      simp at hk
      subst hk
      exact h k _ hg
  · rw [hmGet_call_of_ne c a k hka] at hk
    exact h k r hk

theorem consistent_runCalls {T R : Type} [DecidableEq T] (as : List T) (c : FnCacher T R)
    (h : Consistent c) : Consistent ((c.runCalls as).2.1) := by
  induction as generalizing c with
  | nil => exact h
  | cons a as ih =>
      rw [runCalls_cons]
      exact ih _ (consistent_call c a h)

theorem runCalls_replicate_of_get_some {T R : Type} [DecidableEq T] (n : Nat)
    (c : FnCacher T R) (a : T) (r : R) (h : hmGet c.results a = some r) :
    c.runCalls (List.replicate n a) = (List.replicate n (some r), c, 0) := by
  induction n with
  | zero => rfl
  | succ n ih =>
      rw [List.replicate_succ, runCalls_cons, call_of_get_some c a r h]
      simp [ih, List.replicate_succ]

/-- C1: for every Memoizer state and argument a, if the cache already
contains an entry whose key equals a, call returns the stored result with
zero invocations of the wrapped function and an unchanged state; otherwise
call invokes the wrapped function exactly once with a, inserts the result
keyed by a, and returns that newly stored result. -/
theorem claim_C1 {T R : Type} [DecidableEq T] (c : FnCacher T R) (a : T) :
    (∀ r, hmGet c.results a = some r → c.call a = (some r, c, 0)) ∧
    (hmGet c.results a = none →
      c.call a =
        (some (c.function a),
         { c with results := hmInsert c.results a (c.function a) }, 1)) :=
  ⟨fun r h => call_of_get_some c a r h, fun h => call_of_get_none c a h⟩

theorem claim_C1_witness :
    (FnCacher.mk (fun x : Nat => x * x) [(2, 4)]).call 2 =
      (some 4, FnCacher.mk (fun x : Nat => x * x) [(2, 4)], 0) ∧
    (FnCacher.mk (fun x : Nat => x * x) []).call 3 =
      (some 9, FnCacher.mk (fun x : Nat => x * x) [(3, 9)], 1) :=
  ⟨(claim_C1 (FnCacher.mk (fun x : Nat => x * x) [(2, 4)]) 2).1 4 (by decide),
   (claim_C1 (FnCacher.mk (fun x : Nat => x * x) []) 3).2 (by decide)⟩

/-- C2: for every function f, argument a and count n, issuing n + 1 calls
with a on a fresh Memoizer returns f a every time and invokes the wrapped
function exactly once in total; equal keys never trigger recomputation. -/
theorem claim_C2 {T R : Type} [DecidableEq T] (f : T → R) (a : T) (n : Nat) :
    ((FnCacher.new f).runCalls (List.replicate (n + 1) a)).1 =
      List.replicate (n + 1) (some (f a)) ∧
    ((FnCacher.new f).runCalls (List.replicate (n + 1) a)).2.2 = 1 := by
  have h0 : hmGet (FnCacher.new f).results a = none := rfl
  have hc := call_of_get_none (FnCacher.new f) a h0
  have h1 : hmGet (hmInsert (FnCacher.new f).results a (f a)) a = some (f a) :=
    hmGet_insert_self _ _ _
  rw [List.replicate_succ, runCalls_cons, hc]
  rw [runCalls_replicate_of_get_some n _ a (f a) h1]
  simp [List.replicate_succ, FnCacher.new]

/-- C3: invariant preserved by construction and by every call: every key
present in the mapping stores exactly the value the wrapped function
produces on that key. -/
theorem claim_C3 {T R : Type} [DecidableEq T] (f : T → R) (as : List T) (k : T) (r : R)
    (h : hmGet (((FnCacher.new f).runCalls as).2.1).results k = some r) : r = f k := by
  have hcons := consistent_runCalls as (FnCacher.new f) (consistent_new f)
  have hr := hcons k r h
  rwa [runCalls_function_eq] at hr

theorem claim_C3_witness : (4 : Nat) = (fun x : Nat => x + 1) 3 :=
  claim_C3 (fun x : Nat => x + 1) [3] 3 4 (by decide)

/-- C4: after any sequence of calls with k distinct argument values, the
mapping holds exactly k entries regardless of the total number of calls,
and its keys are pairwise distinct. -/
theorem claim_C4 {T R : Type} [DecidableEq T] (f : T → R) (as : List T) :
    (((FnCacher.new f).runCalls as).2.1).results.length = as.toFinset.card ∧
    (hmKeys (((FnCacher.new f).runCalls as).2.1).results).Nodup := by
  have hnd : (hmKeys (((FnCacher.new f).runCalls as).2.1).results).Nodup :=
    hmKeys_runCalls_nodup as (FnCacher.new f) (by simp [FnCacher.new, hmKeys])
  refine ⟨?_, hnd⟩
  have hmem : ∀ k, k ∈ hmKeys (((FnCacher.new f).runCalls as).2.1).results ↔ k ∈ as := by
    intro k
    rw [mem_hmKeys_iff, hmGet_runCalls_isSome_iff]
    have hbase : hmGet (FnCacher.new f).results k = none := rfl
    simp [hbase]
  have hfin : (hmKeys (((FnCacher.new f).runCalls as).2.1).results).toFinset =
      as.toFinset := by
    ext k
    simp [List.mem_toFinset, hmem]
  calc (((FnCacher.new f).runCalls as).2.1).results.length
      = (hmKeys (((FnCacher.new f).runCalls as).2.1).results).length := by
        simp [hmKeys]
    _ = (hmKeys (((FnCacher.new f).runCalls as).2.1).results).toFinset.card :=
        (List.toFinset_card_of_nodup hnd).symm
    _ = as.toFinset.card := by rw [hfin]

/-- C5: when the wrapped function fails on an uncached argument, call
propagates the failure unchanged, the mapping is left without an entry for
that key (the whole state is unchanged), and a subsequent call with the
same key attempts the function again. -/
theorem claim_C5 {T R : Type} [DecidableEq T] (c : FnCacherE T R) (a : T) (e : String)
    (hf : c.function a = Except.error e) (hg : hmGet c.results a = none) :
    c.call a = (Except.error e, c, 1) ∧
    hmGet ((c.call a).2.1).results a = none ∧
    ((c.call a).2.1).call a = (Except.error e, c, 1) := by
  have h1 : c.call a = (Except.error e, c, 1) := by
    simp [FnCacherE.call, hg, hf]
  refine ⟨h1, ?_, ?_⟩
  · rw [h1]
    exact hg
  · rw [h1]
    exact h1

theorem claim_C5_witness :
    (FnCacherE.mk (fun _ : Nat => (Except.error "boom" : Except String Nat)) []).call 0 =
      (Except.error "boom",
       FnCacherE.mk (fun _ : Nat => (Except.error "boom" : Except String Nat)) [], 1) :=
  (claim_C5 (FnCacherE.mk (fun _ : Nat => (Except.error "boom" : Except String Nat)) [])
    0 "boom" rfl rfl).1

/-- C6: per-key isolation: for distinct arguments a and b, performing a
call with a first does not change the value subsequently returned by a
call with b. -/
theorem claim_C6 {T R : Type} [DecidableEq T] (c : FnCacher T R) (a b : T) (hab : a ≠ b) :
    (((c.call a).2.1).call b).1 = (c.call b).1 := by
  rw [call_fst_eq, call_fst_eq, call_function_eq, hmGet_call_of_ne c a b (Ne.symm hab)]

theorem claim_C6_witness :
    ((((FnCacher.new (fun x : Nat => x * x)).call 2).2.1).call 3).1 =
      ((FnCacher.new (fun x : Nat => x * x)).call 3).1 :=
  claim_C6 (FnCacher.new (fun x : Nat => x * x)) 2 3 (by decide)

/-- C7: each key is unevaluated (no entry) or evaluated (entry present);
the transition happens exactly once, on the first query of that key, with
one invocation; a query of an evaluated key invokes nothing; and no
sequence of calls ever removes or changes an entry once present. -/
theorem claim_C7 {T R : Type} [DecidableEq T] (c : FnCacher T R) (k : T) :
    (hmGet c.results k = none →
      hmGet ((c.call k).2.1).results k = some (c.function k) ∧ (c.call k).2.2 = 1) ∧
    (∀ r, hmGet c.results k = some r → (c.call k).2.2 = 0) ∧
    (∀ r as, hmGet c.results k = some r →
      hmGet ((c.runCalls as).2.1).results k = some r) := by
  refine ⟨?_, ?_, ?_⟩
  · intro h
    rw [call_of_get_none c k h]
    exact ⟨hmGet_insert_self _ _ _, rfl⟩
  · intro r h
    rw [call_of_get_some c k r h]
  · intro r as h
    exact hmGet_runCalls_mono as c k r h

theorem claim_C7_witness :
    hmGet (((FnCacher.new (fun x : Nat => x + 1)).call 5).2.1).results 5 = some 6 ∧
    ((FnCacher.mk (fun x : Nat => x + 1) [(5, 6)]).call 5).2.2 = 0 ∧
    hmGet (((FnCacher.mk (fun x : Nat => x + 1) [(5, 6)]).runCalls [7, 5]).2.1).results 5 =
      some 6 :=
  ⟨((claim_C7 (FnCacher.new (fun x : Nat => x + 1)) 5).1 (by decide)).1,
   (claim_C7 (FnCacher.mk (fun x : Nat => x + 1) [(5, 6)]) 5).2.1 6 (by decide),
   (claim_C7 (FnCacher.mk (fun x : Nat => x + 1) [(5, 6)]) 5).2.2 6 [7, 5] (by decide)⟩

/-- C8: construction cannot fail and yields a Memoizer holding the given
function and an empty mapping. -/
theorem claim_C8 {T R : Type} (f : T → R) :
    (FnCacher.new f).results = [] ∧ (FnCacher.new f).function = f :=
  ⟨rfl, rfl⟩

/-- C9: the map index expression at the end of call never fails: after the
insert-if-missing branch the key is always present, so the returned value
is always some result. -/
theorem claim_C9 {T R : Type} [DecidableEq T] (c : FnCacher T R) (a : T) :
    ((c.call a).1).isSome := by
  rw [call_fst_eq]
  rfl

/-- C10: call is idempotent on the cache state: a second call with the same
argument returns the same result, leaves the state unchanged, and invokes
nothing; when the key is already present, call leaves the entire mapping
unchanged. -/
theorem claim_C10 {T R : Type} [DecidableEq T] (c : FnCacher T R) (a : T) :
    ((c.call a).2.1).call a = ((c.call a).1, (c.call a).2.1, 0) ∧
    (∀ r, hmGet c.results a = some r → c.call a = (some r, c, 0)) := by
  constructor
  · have h := hmGet_call_self c a
    rw [call_of_get_some _ a _ h, call_fst_eq]
  · intro r h
    exact call_of_get_some c a r h

theorem claim_C10_witness :
    (FnCacher.mk (fun x : Nat => x * x) [(3, 9)]).call 3 =
      (some 9, FnCacher.mk (fun x : Nat => x * x) [(3, 9)], 0) :=
  (claim_C10 (FnCacher.mk (fun x : Nat => x * x) [(3, 9)]) 3).2 9 (by decide)
